import Mathlib

/-!
Verification development for the `summarize` file-aggregation pipeline.

The definitions below are shallow embeddings of the Rust sources:
`src/utils/file_helper.rs`, `src/lib.rs`, `src/formatters/output.rs`,
`src/formatters/writer.rs`, `src/models/token_report.rs`,
`src/models/tokenizer_model.rs` and `src/tokenizers/mod.rs`.
Third-party collaborators (the globset crate, the ignore crate's
directory walker, the tiktoken encoders) are modelled by executable
definitions restricted to the features this program exercises; each such
model carries a doc comment saying exactly what it covers.
-/

namespace Summarize

/-! ## Model of the globset crate (third-party dependency)

The program builds a `GlobSet` from user-supplied patterns and matches
bare file names against it.  We model the glob features exercised here:
literal characters, the any-sequence wildcard `*`, the single-character
wildcard `?`, and simple character classes `[...]`.  As in globset, an
unterminated character class is a parse error. -/

/-- One token of a parsed glob pattern. -/
inductive GlobTok where
  | lit (c : Char)
  | star
  | anyChar
  | cls (cs : List Char)
deriving DecidableEq

/-- Parser for a glob pattern, modelling `globset::Glob::new`.
The second argument is `some acc` while scanning the inside of a
character class (accumulated characters in reverse), `none` otherwise.
Returns `none` exactly when a `[` class is never closed. -/
def globParseAux : List Char → Option (List Char) → Option (List GlobTok)
  | [], none => some []
  | [], some _ => none
  | c :: r, some acc =>
    if c = ']' then (globParseAux r none).map (fun ts => GlobTok.cls acc.reverse :: ts)
    else globParseAux r (some (c :: acc))
  | c :: r, none =>
    if c = '*' then (globParseAux r none).map (fun ts => GlobTok.star :: ts)
    else if c = '?' then (globParseAux r none).map (fun ts => GlobTok.anyChar :: ts)
    else if c = '[' then globParseAux r (some [])
    else (globParseAux r none).map (fun ts => GlobTok.lit c :: ts)

/-- `globset::Glob::new`: parse one pattern, failing on a malformed one. -/
def globNew (pattern : String) : Option (List GlobTok) :=
  globParseAux pattern.data none

/-- Matching of a parsed glob against a candidate string (as characters).
`star` matches any sequence of characters (globset's default, where
`literal_separator` is off).  Structural recursion on the pattern: the
`star` case tries every suffix of the candidate. -/
def globMatch : List GlobTok → List Char → Bool
  | [], cs => cs.isEmpty
  | GlobTok.star :: ps, cs => (cs.tails).any (fun suffix => globMatch ps suffix)
  | GlobTok.lit _ :: _, [] => false
  | GlobTok.lit c' :: ps, c :: cs => c' == c && globMatch ps cs
  | GlobTok.anyChar :: _, [] => false
  | GlobTok.anyChar :: ps, _ :: cs => globMatch ps cs
  | GlobTok.cls _ :: _, [] => false
  | GlobTok.cls set :: ps, c :: cs => set.contains c && globMatch ps cs

/-- A compiled glob set is the list of its compiled patterns. -/
def GlobSet := List (List GlobTok)

/-- `GlobSet::is_match`: some pattern of the set matches the candidate. -/
def globSetIsMatch (gs : GlobSet) (s : String) : Bool :=
  gs.any (fun g => globMatch g s.data)

/-- Embedding of `build_globset` (src/utils/file_helper.rs): compile the
patterns in order into one set, failing (the `?` operator) on the first
malformed one. -/
def build_globset : List String → Option GlobSet
  | [] => some []
  | p :: ps =>
    match globNew p with
    | none => none
    | some g => (build_globset ps).map (fun gs => g :: gs)

/-! ## Model of filesystem paths as `should_ignore` sees them -/

/-- The two facts about a path that `should_ignore` consults: its
components (`file_name()` is the last one) and what `path.is_dir()`
reports on the ambient filesystem. -/
structure MPath where
  comps : List String
  isDir : Bool
deriving DecidableEq

/-- `Path::file_name().unwrap_or_default().to_string_lossy()`. -/
def MPath.fileName (p : MPath) : String :=
  (p.comps.getLast?).getD ""

/-- Embedding of `should_ignore` (src/utils/file_helper.rs lines 16-42):
empty pattern list admits everything; a failed globset build silently
admits everything (the code returns `false` there); otherwise the bare
file name is tested, and, unless `ignore_files_only`, a directory is also
tested with a trailing separator appended. -/
def should_ignore (path : MPath) (ignore_patterns : List String)
    (ignore_files_only : Bool) : Bool :=
  if ignore_patterns.isEmpty then false
  else
    match build_globset ignore_patterns with
    | none => false
    | some globset =>
      let name := path.fileName
      if globSetIsMatch globset name then true
      else if !ignore_files_only && path.isDir then
        globSetIsMatch globset (name ++ "/")
      else false

/-! ## The CLI configuration fields the core pipeline reads (src/cli.rs) -/

/-- The subset of the clap-parsed `Cli` struct consulted by `process_path`
and `process_token_count`. -/
structure Cli where
  extensions : List String
  include_hidden : Bool
  ignore_files_only : Bool
  ignore_gitignore : Bool
  exclude_vcs : Bool
  include_vcs : Bool
  ignore_patterns : List String
  line_numbers : Bool
deriving DecidableEq

/-! ## Model of the ignore crate's WalkBuilder (third-party dependency)

Both `process_path` and `process_token_count` traverse a directory root
with `ignore::WalkBuilder`, configured with `follow_links(true)`,
`git_ignore`/`git_global`, `hidden`, and optionally one `filter_entry`
closure that prunes directories named `.git`, `.svn` or `.hg`.

We model a directory root as the flat listing of its subtree: each entry
carries its path components relative to the root, whether it is a
directory, and (for files) its content — `none` standing for a file whose
`read_to_string` fails (unreadable or non-UTF-8 bytes).  The walker
yields exactly the entries all of whose ancestor directories survive
pruning and which themselves survive the entry filters.  Filters
modelled: the hidden filter (names starting with `.`), the crate's
special case that skips `.git` directories whenever gitignore handling is
active (this is what the comment in src/lib.rs relies on), and the
installed `filter_entry` closure, which skips `.git`/`.svn`/`.hg` only
when the entry is a directory.  The modelled trees contain no
`.gitignore` files, so no further gitignore rules apply. -/

/-- One filesystem entry of a directory root's subtree. -/
structure FsEntry where
  comps : List String
  isDir : Bool
  content : Option String
deriving DecidableEq

/-- The walker configuration derived from the builder calls. -/
structure WalkCfg where
  gitIgnore : Bool
  hidden : Bool
  vcsFilter : Bool
deriving DecidableEq

/-- The three directory names pruned by the `filter_entry` closure in
src/lib.rs. -/
def vcsNames : List String := [".git", ".svn", ".hg"]

/-- A file name the hidden filter applies to: first character is a dot. -/
def isHiddenName (name : String) : Bool :=
  match name.data with
  | '.' :: _ => true
  | _ => false

/-- Whether the configured walker skips (prunes) an entry of the given
name and kind.  The `filter_entry` closure returns `!is_dir` for the
three VCS names, i.e. it skips them only when they are directories. -/
def skipEntry (cfg : WalkCfg) (name : String) (isDir : Bool) : Bool :=
  (cfg.hidden && isHiddenName name)
  || (cfg.gitIgnore && isDir && name == ".git")
  || (cfg.vcsFilter && isDir && vcsNames.contains name)

/-- The last path component (the entry's own name). -/
def lastComp (l : List String) : String :=
  (l.getLast?).getD ""

/-- The walker's yield over a directory root: entries reachable without
passing through a pruned directory and not themselves skipped. -/
def walkDir (cfg : WalkCfg) (entries : List FsEntry) : List FsEntry :=
  entries.filter (fun e =>
    !e.comps.isEmpty
    && (e.comps.dropLast).all (fun nm => !skipEntry cfg nm true)
    && !skipEntry cfg (lastComp e.comps) e.isDir)

/-- Walker configuration built by `process_path` (src/lib.rs lines
134-164): gitignore handling follows `!ignore_gitignore`, the hidden
filter follows `!include_hidden`, and the VCS `filter_entry` closure is
installed only when `exclude_vcs && !include_vcs` and (in this mode)
`ignore_gitignore` is true. -/
def walkCfgProcessPath (cli : Cli) : WalkCfg :=
  { gitIgnore := !cli.ignore_gitignore
    hidden := !cli.include_hidden
    vcsFilter := cli.exclude_vcs && !cli.include_vcs && cli.ignore_gitignore }

/-- Walker configuration built by `process_token_count` (src/lib.rs lines
304-334): identical except that the VCS `filter_entry` closure is
installed only when `!ignore_gitignore` is true — the opposite condition
to `process_path`. -/
def walkCfgTokenCount (cli : Cli) : WalkCfg :=
  { gitIgnore := !cli.ignore_gitignore
    hidden := !cli.include_hidden
    vcsFilter := cli.exclude_vcs && !cli.include_vcs && !cli.ignore_gitignore }

/-! ## Rust `Path::extension` on a file name -/

/-- Characters after the last dot. -/
def afterLastDot (l : List Char) : List Char :=
  (l.reverse.takeWhile (fun c => c ≠ '.')).reverse

/-- `Path::extension().and_then(to_str).unwrap_or("")`: the portion of
the file name after the final dot; empty when the name has no dot or only
a leading one. -/
def extensionOf (name : String) : String :=
  match name.data with
  | [] => ""
  | _ :: rest =>
    if rest.any (fun c => c = '.') then String.mk (afterLastDot rest) else ""

/-! ## The per-root discovery pipelines of src/lib.rs -/

/-- A user-supplied root: a regular file (with its readability/content),
or a directory given by its subtree listing. -/
inductive Root where
  | file (path : List String) (content : Option String)
  | dir (path : List String) (entries : List FsEntry)

/-- The post-walk filtering shared by both modes (src/lib.rs lines
177-201 and 349-377): keep only files, drop entries matching the custom
ignore patterns, and when an extension list is given keep only matching
extensions. -/
def keepEntry (cli : Cli) (rootPath : List String) (e : FsEntry) : Bool :=
  !e.isDir
  && !should_ignore ⟨rootPath ++ e.comps, e.isDir⟩ cli.ignore_patterns cli.ignore_files_only
  && (cli.extensions.isEmpty
      || cli.extensions.any (fun ext => ext == extensionOf (lastComp e.comps)))

/-- The (path, content) pairs that `process_path` (src/lib.rs lines
115-221) reads and hands to the formatter, in traversal order.  A root
that is a regular file bypasses every filter: it is read directly, and
only an unreadable file is silently dropped.  A directory root is walked
and filtered; files whose read fails are silently dropped. -/
def processPathFiles (cli : Cli) (root : Root) : List (List String × String) :=
  match root with
  | Root.file path content =>
    match content with
    | some c => [(path, c)]
    | none => []
  | Root.dir path entries =>
    ((walkDir (walkCfgProcessPath cli) entries).filter (keepEntry cli path)).filterMap
      (fun e => (e.content).map (fun c => (path ++ e.comps, c)))

/-- The discovery phase of `process_token_count` (src/lib.rs lines
296-390) for one root: a file root is pushed unconditionally (no filter,
no read); a directory root is walked and filtered exactly as in
`process_path` but with the token-count walker configuration. -/
def tokenDiscoverRoot (cli : Cli) (root : Root) : List (List String) :=
  match root with
  | Root.file path _ => [path]
  | Root.dir path entries =>
    ((walkDir (walkCfgTokenCount cli) entries).filter (keepEntry cli path)).map
      (fun e => path ++ e.comps)

/-! ## The aggregation writer (src/formatters/writer.rs)

The Rust `Writer` owns either an open output file or standard output and
appends one line per `write` call (`writeln!`/`println!`); we model the
sink as the sequence of lines written so far.  `Writer::new`'s possible
`File::create` failure concerns the ambient filesystem and is outside the
embedding. -/

/-- The writer: the lines emitted so far and the XML document index. -/
structure Writer where
  lines : List String
  document_index : Nat
deriving DecidableEq

/-- `Writer::new`: no output yet, document index starts at 1. -/
def Writer.new : Writer :=
  { lines := [], document_index := 1 }

/-- `Writer::write`: append one line to the sink. -/
def Writer.write (w : Writer) (content : String) : Writer :=
  { w with lines := w.lines ++ [content] }

/-! ## Line numbering (src/formatters/output.rs lines 37-47) -/

/-- Structural split of a character list at newline characters; always
returns at least one (possibly empty) part. -/
def splitNl : List Char → List (List Char)
  | [] => [[]]
  | c :: r =>
    if c = '\n' then [] :: splitNl r
    else
      match splitNl r with
      | [] => [[c]]
      | p :: ps => (c :: p) :: ps

/-- Drop one trailing carriage return, if present. -/
def stripCR (l : String) : String :=
  if l.data.getLast? = some '\r' then String.mk l.data.dropLast else l

/-- Model of Rust's `str::lines`: split at `\n`, treat a `\r` immediately
before each `\n` as part of the terminator, drop the final empty piece
produced by a trailing newline, and yield nothing for the empty string. -/
def rustLines (s : String) : List String :=
  if s = "" then []
  else
    let parts := (splitNl s.data).map String.mk
    let body := (parts.dropLast).map stripCR
    match parts.getLast? with
    | some "" => body
    | some last => body ++ [last]
    | none => body

/-- A run of spaces. -/
def spacesStr (k : Nat) : String :=
  String.mk (List.replicate k ' ')

/-- Rust's `format!("{:width$}", n)` for a natural number: the decimal
digits right-aligned in a field of the given width, space-filled. -/
def fmtPad (width n : Nat) : String :=
  let s := Nat.repr n
  spacesStr (width - s.length) ++ s

/-- The numbered lines built inside `add_line_numbers`: padding width is
the digit count of the total line count, each line prefixed with its
1-based index right-aligned to that width plus two spaces. -/
def numberedLines (content : String) : List String :=
  let lines := rustLines content
  let padding := (Nat.repr lines.length).length
  (lines.enum).map (fun e => fmtPad padding (e.1 + 1) ++ "  " ++ e.2)

/-- Model of `Vec<String>::join("\n")`. -/
def joinLines : List String → String
  | [] => ""
  | [l] => l
  | l :: ls => l ++ "\n" ++ joinLines ls

/-- Embedding of `add_line_numbers` (src/formatters/output.rs). -/
def add_line_numbers (content : String) : String :=
  joinLines (numberedLines content)

/-! ## The three output encodings (src/formatters/output.rs) -/

/-- The output format enum (src/models/output_format.rs). -/
inductive OutputFormat where
  | default
  | cxml
  | markdown
deriving DecidableEq

/-- The extension-to-language table `EXT_TO_LANG`. -/
def EXT_TO_LANG : List (String × String) :=
  [("py", "python"), ("c", "c"), ("cpp", "cpp"), ("h", "c"), ("hpp", "cpp"),
   ("java", "java"), ("js", "javascript"), ("ts", "typescript"),
   ("html", "html"), ("css", "css"), ("xml", "xml"), ("json", "json"),
   ("yaml", "yaml"), ("yml", "yaml"), ("sh", "bash"), ("rb", "ruby"),
   ("rs", "rust"), ("go", "go"), ("md", "markdown"), ("toml", "toml")]

/-- `EXT_TO_LANG.get(extension).copied().unwrap_or("")`. -/
def langFor (ext : String) : String :=
  ((EXT_TO_LANG.find? (fun e => e.1 == ext)).map (fun e => e.2)).getD ""

/-- The last `/`-separated component of a rendered path, as
`Path::file_name` sees it before `extension()` is taken. -/
def fileNamePart (path : String) : String :=
  String.mk ((path.data.reverse.takeWhile (fun c => c ≠ '/')).reverse)

/-- Substring containment test, modelling Rust's `str::contains` for a
plain string needle: some suffix of the haystack starts with the
needle. -/
def containsSeq (needle haystack : List Char) : Bool :=
  (haystack.tails).any (fun t => List.isPrefixOf needle t)

/-- The backtick character (code point 96). -/
def btick : Char := Char.ofNat 96

/-- The backtick-growing loop of `print_as_markdown`: starting from the
given fence, append one backtick while the content still contains the
fence. -/
def growFence (content : List Char) (fence : List Char) : List Char :=
  if h : containsSeq fence content then growFence content (fence ++ [btick])
  else fence
termination_by content.length + 1 - fence.length
decreasing_by
  have hle : fence.length ≤ content.length := by
    have hex : ∃ t ∈ content.tails, List.isPrefixOf fence t = true := by
      simpa [containsSeq, List.any_eq_true] using h
    rcases hex with ⟨t, ht, hp⟩
    have hsuf : t.IsSuffix content := by simpa [List.mem_tails] using ht
    have hpre : fence <+: t := by
      simpa [ List.isPrefixOf_iff_prefix] using hp
    calc fence.length ≤ t.length := hpre.length_le
      _ ≤ content.length := hsuf.length_le
  simp only [List.length_append, List.length_cons, List.length_nil]
  omega

/-- The fence `print_as_markdown` settles on: three backticks grown until
the fence no longer occurs in the content. -/
def markdownFence (content : String) : String :=
  String.mk (growFence content.data [btick, btick, btick])

/-- Embedding of `print_default` (src/formatters/output.rs lines 63-82). -/
def print_default (w : Writer) (path content : String) (line_numbers : Bool) : Writer :=
  let w := w.write path
  let w := w.write "---"
  let w := w.write (if line_numbers then add_line_numbers content else content)
  let w := w.write ""
  w.write "---"

/-- Embedding of `print_as_xml` (src/formatters/output.rs lines 84-106):
six lines are written, the first carrying the writer's current document
index, which is incremented at the end. -/
def print_as_xml (w : Writer) (path content : String) (line_numbers : Bool) : Writer :=
  let w' := w.write ("<document index=\"" ++ Nat.repr w.document_index ++ "\">")
  let w' := w'.write ("<source>" ++ path ++ "</source>")
  let w' := w'.write "<document_content>"
  let w' := w'.write (if line_numbers then add_line_numbers content else content)
  let w' := w'.write "</document_content>"
  let w' := w'.write "</document>"
  { w' with document_index := w'.document_index + 1 }

/-- The six lines `print_as_xml` emits for one document carrying the
given index (the shape the spec describes). -/
def xmlDocBlock (line_numbers : Bool) (i : Nat) (path content : String) : List String :=
  ["<document index=\"" ++ Nat.repr i ++ "\">",
   "<source>" ++ path ++ "</source>",
   "<document_content>",
   (if line_numbers then add_line_numbers content else content),
   "</document_content>",
   "</document>"]

/-- The lines a sequence of documents produces when the first one carries
the given index and each subsequent document's index is one higher. -/
def xmlBlocks (line_numbers : Bool) : Nat → List (String × String) → List String
  | _, [] => []
  | i, d :: ds => xmlDocBlock line_numbers i d.1 d.2 ++ xmlBlocks line_numbers (i + 1) ds

/-- Embedding of `print_as_markdown` (src/formatters/output.rs lines
108-136). -/
def print_as_markdown (w : Writer) (path content : String) (line_numbers : Bool) : Writer :=
  let extension := extensionOf (fileNamePart path)
  let lang := langFor extension
  let backticks := markdownFence content
  let w := w.write path
  let w := w.write (backticks ++ lang)
  let w := w.write (if line_numbers then add_line_numbers content else content)
  w.write backticks

/-- Embedding of `print_path` (src/formatters/output.rs lines 49-61). -/
def print_path (w : Writer) (path content : String) (format : OutputFormat)
    (line_numbers : Bool) : Writer :=
  match format with
  | OutputFormat.cxml => print_as_xml w path content line_numbers
  | OutputFormat.markdown => print_as_markdown w path content line_numbers
  | OutputFormat.default => print_default w path content line_numbers

/-! ## TokenReport (src/models/token_report.rs) and the counting phase -/

/-- Model of `HashMap<PathBuf, usize>` as its entry list; `HashMap`
iteration order is arbitrary, which the theorems account for by
quantifying over permutations of the entries. -/
structure SMap where
  entries : List (List String × Nat)
deriving DecidableEq

/-- Whether a key is present. -/
def SMap.hasKey (m : SMap) (k : List String) : Bool :=
  m.entries.any (fun e => e.1 == k)

/-- `HashMap::insert`: overwrite the value when the key is present,
append the pair otherwise. -/
def SMap.insert (m : SMap) (k : List String) (v : Nat) : SMap :=
  if m.hasKey k then ⟨m.entries.map (fun e => if e.1 == k then (k, v) else e)⟩
  else ⟨m.entries ++ [(k, v)]⟩

/-- `HashMap::get`-style lookup. -/
def SMap.lookup (m : SMap) (k : List String) : Option Nat :=
  (m.entries.find? (fun e => e.1 == k)).map (fun e => e.2)

/-- The sum of the map's values. -/
def sumValues (m : SMap) : Nat :=
  (m.entries.map (fun e => e.2)).sum

/-- Embedding of `TokenReport` (src/models/token_report.rs). -/
structure TokenReport where
  file_tokens : SMap
  total_tokens : Nat
  duration_ms : Nat
deriving DecidableEq

/-- `TokenReport::new`. -/
def TokenReport.new : TokenReport :=
  { file_tokens := ⟨[]⟩, total_tokens := 0, duration_ms := 0 }

/-- `TokenReport::add_file`: insert (possibly overwriting) the map entry
and unconditionally add the count to the running total. -/
def TokenReport.add_file (r : TokenReport) (path : List String)
    (token_count : Nat) : TokenReport :=
  { r with
    file_tokens := r.file_tokens.insert path token_count
    total_tokens := r.total_tokens + token_count }

/-- One worker step of the counting phase (src/lib.rs lines 406-429): a
readable file contributes its token count to the shared map under the
mutex; an unreadable file is skipped.  `tok` abstracts the (pure)
tokenizer applied to the file content, `read` the ambient filesystem. -/
def countStep (tok : String → Nat) (read : List String → Option String)
    (m : SMap) (p : List String) : SMap :=
  match read p with
  | some content => m.insert p (tok content)
  | none => m

/-- The counting phase over the discovered files processed in the order
`proc` (the serialization order of the mutex-guarded updates). -/
def runCounting (tok : String → Nat) (read : List String → Option String)
    (proc : List (List String)) : SMap :=
  proc.foldl (countStep tok read) ⟨[]⟩

/-- The final merge (src/lib.rs lines 434-441): fold `add_file` over the
shared map's entries, in whatever order the `HashMap` yields them. -/
def buildReport (es : List (List String × Nat)) : TokenReport :=
  es.foldl (fun r e => r.add_file e.1 e.2) TokenReport.new

/-! ## Tokenizer dispatch (src/tokenizers/mod.rs) -/

/-- The supported models (src/models/tokenizer_model.rs). -/
inductive TokenizerModel where
  | gemini15Pro
  | gemini15Flash
  | gemini20Flash
  | gemini20FlashLite
  | gemini20Pro
  | gemini20ProExp
  | gemini20ProExp0205
  | gemini20FlashThinkingExp
  | gpt35Turbo
  | gpt4
  | gpt4Turbo
  | claude3Sonnet
  | claude3Opus
deriving DecidableEq

/-- Embedding of `get_tokenizer_name` (src/tokenizers/mod.rs lines
4-20). -/
def get_tokenizer_name : TokenizerModel → String
  | TokenizerModel.gemini15Pro => "cl100k_base"
  | TokenizerModel.gemini15Flash => "cl100k_base"
  | TokenizerModel.gemini20Flash => "cl100k_base"
  | TokenizerModel.gemini20FlashLite => "cl100k_base"
  | TokenizerModel.gemini20Pro => "cl100k_base"
  | TokenizerModel.gemini20ProExp => "cl100k_base"
  | TokenizerModel.gemini20ProExp0205 => "cl100k_base"
  | TokenizerModel.gemini20FlashThinkingExp => "cl100k_base"
  | TokenizerModel.gpt35Turbo => "cl100k_base"
  | TokenizerModel.gpt4 => "cl100k_base"
  | TokenizerModel.gpt4Turbo => "cl100k_base"
  | TokenizerModel.claude3Sonnet => "p50k_base"
  | TokenizerModel.claude3Opus => "p50k_base"

/-- Which branch of the `match` in `count_tokens` runs. -/
inductive CountBranch where
  | cl100k
  | p50k
  | fallback
deriving DecidableEq

/-- The branch selection of `count_tokens` (src/tokenizers/mod.rs lines
41-59): dispatch on the tokenizer name, with a final fallback arm. -/
def countBranch (model : TokenizerModel) : CountBranch :=
  match get_tokenizer_name model with
  | "cl100k_base" => CountBranch.cl100k
  | "p50k_base" => CountBranch.p50k
  | _ => CountBranch.fallback

/-- Embedding of `count_tokens`, with the two tiktoken encoders
abstracted as pure counting functions (the fallback arm also uses
`p50k_base`). -/
def count_tokens (cl100k p50k : String → Nat) (text : String)
    (model : TokenizerModel) : Nat :=
  match get_tokenizer_name model with
  | "cl100k_base" => cl100k text
  | "p50k_base" => p50k text
  | _ => p50k text

/-! ## Theorems -/

/-- Folding `add_file` over entries whose keys are fresh and pairwise
distinct adds every count to the total and appends every entry to the
map. -/
lemma buildReport_go (es : List (List String × Nat)) :
    ∀ r : TokenReport, (es.map Prod.fst).Nodup →
      (∀ k ∈ es.map Prod.fst, r.file_tokens.hasKey k = false) →
      ((es.foldl (fun r e => r.add_file e.1 e.2) r).total_tokens
          = r.total_tokens + (es.map (fun e => e.2)).sum)
      ∧ ((es.foldl (fun r e => r.add_file e.1 e.2) r).file_tokens.entries
          = r.file_tokens.entries ++ es) := by
  induction es with
  | nil => simp
  | cons e es ih =>
    intro r hnd hfresh
    have hk : r.file_tokens.hasKey e.1 = false := hfresh e.1 (by simp)
    have hins : (r.add_file e.1 e.2).file_tokens.entries
        = r.file_tokens.entries ++ [(e.1, e.2)] := by
      simp [TokenReport.add_file, SMap.insert, hk]
    have hcons : (e.1 :: es.map Prod.fst).Nodup := by simpa using hnd
    have hnotin : e.1 ∉ es.map Prod.fst := (List.nodup_cons.mp hcons).1
    have hfresh' : ∀ k ∈ es.map Prod.fst,
        (r.add_file e.1 e.2).file_tokens.hasKey k = false := by
      intro k hkmem
      have hne : e.1 ≠ k := fun hEq => hnotin (hEq ▸ hkmem)
      have h0 : r.file_tokens.hasKey k = false := hfresh k (by simp [hkmem])
      simp only [SMap.hasKey, hins, List.any_append, List.any_cons, List.any_nil] at *
      simp [h0, hne]
    have hnd' : (es.map Prod.fst).Nodup := (List.nodup_cons.mp hcons).2
    obtain ⟨ht, hent⟩ := ih (r.add_file e.1 e.2) hnd' hfresh'
    refine ⟨?_, ?_⟩
    · rw [List.foldl_cons, ht]
      simp [TokenReport.add_file]
      omega
    · rw [List.foldl_cons, hent, hins]
      simp

/-- C10: for every sequence of add_file calls with pairwise-distinct
paths, total_tokens equals the sum of file_tokens' values afterwards;
but calling add_file twice with the same path overwrites the map entry
while adding both counts to the total, so the invariant fails for a
repeated path. -/
theorem C10_add_file_invariant :
    (∀ es : List (List String × Nat), (es.map Prod.fst).Nodup →
        (buildReport es).total_tokens = sumValues (buildReport es).file_tokens)
    ∧ (buildReport [(["dup"], 3), (["dup"], 5)]).total_tokens
        ≠ sumValues (buildReport [(["dup"], 3), (["dup"], 5)]).file_tokens := by
  constructor
  · intro es hnd
    obtain ⟨ht, hent⟩ := buildReport_go es TokenReport.new hnd (fun k _ => rfl)
    have h1 : (buildReport es).total_tokens = (es.map (fun e => e.2)).sum := by
      rw [buildReport, ht]
      simp [TokenReport.new]
    have h2 : (buildReport es).file_tokens.entries = es := by
      rw [buildReport, hent]
      simp [TokenReport.new]
    rw [h1, sumValues, h2]
  · decide

/-- Witness for C10: a concrete two-call sequence with distinct paths
satisfies the invariant. -/
theorem C10_add_file_invariant_witness :
    (buildReport [(["a"], 3), (["b"], 5)]).total_tokens
      = sumValues (buildReport [(["a"], 3), (["b"], 5)]).file_tokens :=
  C10_add_file_invariant.1 [(["a"], 3), (["b"], 5)] (by decide)

/-- C5: a root path that is a regular file bypasses every filter — the
content pipeline emits it (if readable) and the token-count discovery
yields it, for every configuration of extensions, ignore patterns,
hidden-file policy and gitignore handling. -/
theorem C5_file_root_bypasses_filters :
    (∀ (cli : Cli) (path : List String) (c : String),
        processPathFiles cli (Root.file path (some c)) = [(path, c)])
    ∧ (∀ (cli : Cli) (path : List String) (content : Option String),
        tokenDiscoverRoot cli (Root.file path content) = [path]) := by
  exact ⟨fun _ _ _ => rfl, fun _ _ _ => rfl⟩

/-- Folding `print_as_xml` over a document list appends one six-line
block per document, with indices counting up from the writer's starting
index, and advances the index by the number of documents. -/
lemma foldXml (line_numbers : Bool) (docs : List (String × String)) :
    ∀ w : Writer,
      ((docs.foldl (fun w d => print_as_xml w d.1 d.2 line_numbers) w).lines
          = w.lines ++ xmlBlocks line_numbers w.document_index docs)
      ∧ ((docs.foldl (fun w d => print_as_xml w d.1 d.2 line_numbers) w).document_index
          = w.document_index + docs.length) := by
  induction docs with
  | nil => simp [xmlBlocks]
  | cons d ds ih =>
    intro w
    obtain ⟨hl, hi⟩ := ih (print_as_xml w d.1 d.2 line_numbers)
    have hw : (print_as_xml w d.1 d.2 line_numbers).lines
        = w.lines ++ xmlDocBlock line_numbers w.document_index d.1 d.2 := by
      simp [print_as_xml, Writer.write, xmlDocBlock]
    have hwi : (print_as_xml w d.1 d.2 line_numbers).document_index
        = w.document_index + 1 := by
      simp [print_as_xml, Writer.write]
    refine ⟨?_, ?_⟩
    · rw [List.foldl_cons, hl, hw, hwi]
      simp [xmlBlocks]
    · rw [List.foldl_cons, hi, hwi]
      simp [List.length_cons]
      omega

/-- C6: the XML document index starts at 1 in a fresh Writer, print_as_xml
increments it exactly once per emitted document, and a sequence of N
documents written through one Writer carries indices 1, 2, ..., N. -/
theorem C6_xml_document_index :
    Writer.new.document_index = 1
    ∧ (∀ (w : Writer) (path content : String) (line_numbers : Bool),
        (print_as_xml w path content line_numbers).document_index
          = w.document_index + 1)
    ∧ (∀ (line_numbers : Bool) (docs : List (String × String)),
        ((docs.foldl (fun w d => print_as_xml w d.1 d.2 line_numbers) Writer.new).lines
            = xmlBlocks line_numbers 1 docs)
        ∧ ((docs.foldl (fun w d => print_as_xml w d.1 d.2 line_numbers) Writer.new).document_index
            = 1 + docs.length)) := by
  refine ⟨rfl, fun w path content line_numbers => rfl, fun line_numbers docs => ?_⟩
  obtain ⟨hl, hi⟩ := foldXml line_numbers docs Writer.new
  exact ⟨by simpa [Writer.new] using hl, by simpa [Writer.new] using hi⟩

/-- C9: the model-to-tokenizer-family mapping is total over every
TokenizerModel variant, assigning each model one of exactly two families
(cl100k_base or p50k_base), so the fallback arm of count_tokens is
unreachable: the selected branch is never the fallback and the computed
count always comes from one of the two named encoders. -/
theorem C9_tokenizer_dispatch_total (m : TokenizerModel) :
    (get_tokenizer_name m = "cl100k_base" ∨ get_tokenizer_name m = "p50k_base")
    ∧ countBranch m ≠ CountBranch.fallback
    ∧ (∀ (cl100k p50k : String → Nat) (text : String),
        count_tokens cl100k p50k text m = cl100k text
        ∨ count_tokens cl100k p50k text m = p50k text) := by
  cases m <;>
    exact ⟨by decide, by decide, fun cl100k p50k text => by
      simp [count_tokens, get_tokenizer_name]⟩

set_option maxRecDepth 40000 in
/-- C7: add_line_numbers splits the content into lines, uses as padding
width the number of decimal digits of the total line count, and prefixes
the i-th line with its 1-based index right-aligned to that width followed
by two spaces; for 100 input lines the first output line is "  1  "
followed by the line and the 100th starts with "100  ". -/
theorem C7_add_line_numbers (content : String) :
    (add_line_numbers content = joinLines (numberedLines content))
    ∧ (numberedLines content).length = (rustLines content).length
    ∧ (∀ i (h1 : i < (numberedLines content).length)
        (h2 : i < (rustLines content).length),
        (numberedLines content).get ⟨i, h1⟩
          = fmtPad ((Nat.repr (rustLines content).length).length) (i + 1) ++ "  "
              ++ (rustLines content).get ⟨i, h2⟩)
    ∧ ((numberedLines (joinLines (List.replicate 100 "L"))).head? = some "  1  L"
        ∧ (numberedLines (joinLines (List.replicate 100 "L"))).getLast? = some "100  L") := by
  refine ⟨rfl, by simp [numberedLines], ?_, by decide, by decide⟩
  intro i h1 h2
  simp [numberedLines, List.get_eq_getElem, List.getElem_enum]

/-- Witness for C7: the first line of a concrete two-line content is
numbered with width 1, index 1 and two trailing spaces. -/
theorem C7_add_line_numbers_witness :
    (numberedLines "a\nb").get ⟨0, by decide⟩
      = fmtPad ((Nat.repr (rustLines "a\nb").length).length) (0 + 1) ++ "  "
          ++ (rustLines "a\nb").get ⟨0, by decide⟩ :=
  (C7_add_line_numbers "a\nb").2.2.1 0 (by decide) (by decide)

/-- The globset build succeeds exactly when every pattern parses. -/
lemma build_globset_isSome_iff (pats : List String) :
    (build_globset pats).isSome ↔ ∀ p ∈ pats, (globNew p).isSome := by
  induction pats with
  | nil => simp [build_globset]
  | cons p ps ih =>
    rw [build_globset]
    cases hp : globNew p <;> cases hps : build_globset ps <;>
      simp_all

/-- Permuting the pattern list permutes the compiled glob set. -/
lemma build_globset_perm : ∀ {l₁ l₂ : List String}, l₁.Perm l₂ →
    ∀ {g₁ g₂ : GlobSet}, build_globset l₁ = some g₁ →
      build_globset l₂ = some g₂ → g₁.Perm g₂ := by
  intro l₁ l₂ hp
  induction hp with
  | nil =>
    intro g₁ g₂ h₁ h₂
    simp [build_globset] at h₁ h₂
    subst h₁; subst h₂
    exact List.Perm.refl []
  | cons x hperm ih =>
    intro g₁ g₂ h₁ h₂
    rw [build_globset] at h₁ h₂
    cases hx : globNew x <;> rw [hx] at h₁ h₂
    · exact absurd h₁ (by simp)
    · cases ht₁ : build_globset _ <;> rw [ht₁] at h₁ <;> simp at h₁
      cases ht₂ : build_globset _ <;> rw [ht₂] at h₂ <;> simp at h₂
      subst h₁; subst h₂
      exact (ih ht₁ ht₂).cons _
  | swap x y t =>
    intro g₁ g₂ h₁ h₂
    cases hy : globNew y with
    | none => rw [build_globset, hy] at h₁; exact absurd h₁ (by simp)
    | some gy =>
      cases hx : globNew x with
      | none => rw [build_globset, hx] at h₂; exact absurd h₂ (by simp)
      | some gx =>
        cases ht : build_globset t with
        | none =>
          rw [build_globset, hy, build_globset, hx, ht] at h₁
          exact absurd h₁ (by simp)
        | some gt =>
          rw [build_globset, hy, build_globset, hx, ht] at h₁
          rw [build_globset, hx, build_globset, hy, ht] at h₂
          simp at h₁ h₂
          subst h₁; subst h₂
          exact List.Perm.swap gx gy gt
  | trans h₁₂ h₂₃ ih₁ ih₂ =>
    rename_i la lb lc
    intro g₁ g₃ h₁ h₃
    have hmid : Option.isSome (build_globset lb) = true := by
      rw [build_globset_isSome_iff]
      intro p hpmem
      exact (build_globset_isSome_iff la).mp (by simp [h₁]) p (h₁₂.mem_iff.mpr hpmem)
    obtain ⟨g₂, hg₂⟩ := Option.isSome_iff_exists.mp hmid
    exact (ih₁ h₁ hg₂).trans (ih₂ hg₂ h₃)

/-- Matching against a glob set is invariant under permuting the set. -/
lemma globSetIsMatch_perm {g₁ g₂ : GlobSet} (hp : List.Perm g₁ g₂) (s : String) :
    globSetIsMatch g₁ s = globSetIsMatch g₂ s := by
  simp only [globSetIsMatch]
  cases h2 : List.any g₂ (fun g => globMatch g s.data) with
  | false =>
    rw [List.any_eq_false] at h2 ⊢
    exact fun g hg => h2 g (hp.mem_iff.mp hg)
  | true =>
    rw [List.any_eq_true] at h2 ⊢
    obtain ⟨g, hg, hm⟩ := h2
    exact ⟨g, hp.mem_iff.mpr hg, hm⟩

/-- C8: should_ignore is idempotent (repeated calls on the same inputs
return the same boolean — the embedding is a pure function of the path,
the pattern list and the flag), its result is independent of the order of
the pattern list, and with patterns ["*.log"] it excludes file.log and
admits file.txt. -/
theorem C8_should_ignore_algebraic :
    (∀ (p : MPath) (pats : List String) (fl : Bool),
        should_ignore p pats fl = should_ignore p pats fl)
    ∧ (∀ (p : MPath) (pats₁ pats₂ : List String) (fl : Bool), pats₁.Perm pats₂ →
        should_ignore p pats₁ fl = should_ignore p pats₂ fl)
    ∧ should_ignore ⟨["file.log"], false⟩ ["*.log"] false = true
    ∧ should_ignore ⟨["file.txt"], false⟩ ["*.log"] false = false := by
  refine ⟨fun p pats fl => rfl, ?_, by decide, by decide⟩
  intro p pats₁ pats₂ fl hperm
  by_cases he : pats₁.isEmpty
  · have h1 : pats₁ = [] := by simpa [List.isEmpty_iff] using he
    subst h1
    have h2 : pats₂ = [] := hperm.symm.eq_nil
    subst h2
    rfl
  · have h1 : pats₁ ≠ [] := by simpa [List.isEmpty_iff] using he
    have h2 : pats₂ ≠ [] := fun hn => h1 (hperm.trans (hn ▸ List.Perm.refl _)).eq_nil
    have heb : pats₁.isEmpty = false := by simpa [List.isEmpty_iff] using h1
    have he₂ : pats₂.isEmpty = false := by simpa [List.isEmpty_iff] using h2
    simp only [should_ignore, heb, he₂, Bool.false_eq_true, if_false]
    cases h₁ : build_globset pats₁ with
    | none =>
      have h₂ : build_globset pats₂ = none := by
        cases hb : build_globset pats₂ with
        | none => rfl
        | some g =>
          exfalso
          have hs : (build_globset pats₁).isSome := by
            rw [build_globset_isSome_iff]
            intro q hq
            exact (build_globset_isSome_iff pats₂).mp (by simp [hb]) q (hperm.mem_iff.mp hq)
          rw [h₁] at hs
          exact absurd hs (by simp)
      rw [h₂]
    | some g₁ =>
      obtain ⟨g₂, h₂⟩ : ∃ g, build_globset pats₂ = some g := by
        have hs : (build_globset pats₂).isSome := by
          rw [build_globset_isSome_iff]
          intro q hq
          exact (build_globset_isSome_iff pats₁).mp (by simp [h₁]) q (hperm.mem_iff.mpr hq)
        exact Option.isSome_iff_exists.mp hs
      have hg : List.Perm g₁ g₂ := build_globset_perm hperm h₁ h₂
      rw [h₂]
      simp only [globSetIsMatch_perm hg]

/-- Witness for C8: order-independence applied to the concrete swap of a
two-pattern list. -/
theorem C8_should_ignore_algebraic_witness :
    should_ignore ⟨["file.log"], false⟩ ["*.log", "*.js"] false
      = should_ignore ⟨["file.log"], false⟩ ["*.js", "*.log"] false :=
  C8_should_ignore_algebraic.2.1 ⟨["file.log"], false⟩ ["*.log", "*.js"]
    ["*.js", "*.log"] false (by decide)

/-- With an unparsable pattern in the list, should_ignore returns false
for every path: the failed globset build is swallowed and no pattern —
valid or not — is applied. -/
lemma should_ignore_eq_false_of_bad (pats : List String)
    (hbad : ∃ q ∈ pats, globNew q = none) (p : MPath) (fl : Bool) :
    should_ignore p pats fl = false := by
  obtain ⟨q, hq, hnone⟩ := hbad
  have hne : pats ≠ [] := by
    rintro rfl
    exact absurd hq (by simp)
  have heb : pats.isEmpty = false := by simpa [List.isEmpty_iff] using hne
  have hbuild : build_globset pats = none := by
    cases hb : build_globset pats with
    | none => rfl
    | some g =>
      exfalso
      have hs := (build_globset_isSome_iff pats).mp (by simp [hb]) q hq
      rw [hnone] at hs
      exact absurd hs (by simp)
  simp [should_ignore, heb, hbuild]

/-- Counterexample for C1: with the unparsable glob "[" in the ignore
list (alongside the valid "*.log"), should_ignore admits file.log and the
content pipeline processes every file — the operation is not aborted and
filtering silently proceeds with no pattern applied. -/
theorem C1_invalid_glob_counterexample :
    should_ignore ⟨["r", "file.log"], false⟩ ["*.log", "["] false = false
    ∧ processPathFiles
        { extensions := [], include_hidden := false, ignore_files_only := false,
          ignore_gitignore := false, exclude_vcs := true, include_vcs := false,
          ignore_patterns := ["*.log", "["], line_numbers := false }
        (Root.dir ["r"]
          [⟨["file.log"], false, some "log content"⟩,
           ⟨["notes.txt"], false, some "text content"⟩])
      = [(["r", "file.log"], "log content"), (["r", "notes.txt"], "text content")] :=
  ⟨by decide, by decide⟩

/-- C1 (amended): an invalid glob pattern in the ignore list is not a
fatal error; build_globset's failure makes should_ignore return false on
every path, so processing continues exactly as if no ignore pattern had
been given. -/
theorem C1_invalid_glob_amended (cli : Cli) (root : Root)
    (hbad : ∃ q ∈ cli.ignore_patterns, globNew q = none) :
    (∀ (p : MPath) (fl : Bool), should_ignore p cli.ignore_patterns fl = false)
    ∧ processPathFiles cli root
        = processPathFiles { cli with ignore_patterns := [] } root := by
  refine ⟨should_ignore_eq_false_of_bad _ hbad, ?_⟩
  cases root with
  | file path content => rfl
  | dir path entries =>
    simp only [processPathFiles]
    have hkeep : ∀ e ∈ walkDir (walkCfgProcessPath cli) entries,
        keepEntry cli path e = keepEntry { cli with ignore_patterns := [] } path e := by
      intro e _
      simp only [keepEntry]
      rw [should_ignore_eq_false_of_bad _ hbad]
      have hnil : should_ignore ⟨path ++ e.comps, e.isDir⟩ [] cli.ignore_files_only
          = false := rfl
      rw [hnil]
    rw [List.filter_congr hkeep]
    rfl

/-- Witness for C1 (amended): the concrete bad pattern list ["*.log", "["]
behaves exactly like the empty one on a concrete root. -/
theorem C1_invalid_glob_amended_witness :
    (∀ (p : MPath) (fl : Bool),
        should_ignore p
          (Cli.mk [] false false false true false ["*.log", "["] false).ignore_patterns fl
          = false)
    ∧ processPathFiles (Cli.mk [] false false false true false ["*.log", "["] false)
        (Root.file ["r", "a.txt"] (some "x"))
        = processPathFiles
            { Cli.mk [] false false false true false ["*.log", "["] false with
              ignore_patterns := [] }
            (Root.file ["r", "a.txt"] (some "x")) :=
  C1_invalid_glob_amended (Cli.mk [] false false false true false ["*.log", "["] false)
    (Root.file ["r", "a.txt"] (some "x")) ⟨"[", by decide⟩

/-- When the walker's hidden filter or the VCS filter_entry closure is
active, no yielded entry lies below a directory named .git, .svn or .hg. -/
lemma walkDir_no_vcs_interior (cfg : WalkCfg) (entries : List FsEntry)
    (hyp : cfg.hidden = true ∨ cfg.vcsFilter = true) :
    ∀ e ∈ walkDir cfg entries, ∀ nm ∈ e.comps.dropLast, ¬ nm ∈ vcsNames := by
  intro e he nm hnm hvcs
  rw [walkDir, List.mem_filter] at he
  obtain ⟨-, hcond⟩ := he
  simp only [Bool.and_eq_true, List.all_eq_true] at hcond
  have hpass := hcond.1.2 nm hnm
  have hskip : skipEntry cfg nm true = true := by
    rcases hyp with hh | hv
    · have hhid : isHiddenName nm = true := by
        simp only [vcsNames, List.mem_cons, List.not_mem_nil, or_false] at hvcs
        rcases hvcs with rfl | rfl | rfl <;> decide
      simp [skipEntry, hh, hhid]
    · simp [skipEntry, hv, hvcs]
  rw [hskip] at hpass
  exact absurd hpass (by decide)

/-- Counterexample for C2: with hidden files included and gitignore
handling left enabled, process_path does not prune a directory named
.svn (the filter_entry closure is only installed when ignore_gitignore
is set): the file inside it is emitted.  Moreover, with ignore_gitignore
set on the same tree the two modes disagree: process_path prunes the
.svn subtree while the token-count discovery yields the file inside it —
the pruning is not identical in both modes. -/
theorem C2_vcs_pruning_counterexample :
    processPathFiles
      { extensions := [], include_hidden := true, ignore_files_only := false,
        ignore_gitignore := false, exclude_vcs := true, include_vcs := false,
        ignore_patterns := [], line_numbers := false }
      (Root.dir ["r"]
        [⟨[".svn"], true, none⟩, ⟨[".svn", "s.txt"], false, some "secret"⟩])
      = [(["r", ".svn", "s.txt"], "secret")]
    ∧ processPathFiles
        { extensions := [], include_hidden := true, ignore_files_only := false,
          ignore_gitignore := true, exclude_vcs := true, include_vcs := false,
          ignore_patterns := [], line_numbers := false }
        (Root.dir ["r"]
          [⟨[".svn"], true, none⟩, ⟨[".svn", "s.txt"], false, some "secret"⟩])
        = []
    ∧ tokenDiscoverRoot
        { extensions := [], include_hidden := true, ignore_files_only := false,
          ignore_gitignore := true, exclude_vcs := true, include_vcs := false,
          ignore_patterns := [], line_numbers := false }
        (Root.dir ["r"]
          [⟨[".svn"], true, none⟩, ⟨[".svn", "s.txt"], false, some "secret"⟩])
        = [["r", ".svn", "s.txt"]] :=
  ⟨by decide, by decide, by decide⟩

/-- C2 (amended): with VCS exclusion enabled, directories named .git,
.svn or .hg are pruned (their subtree yields nothing) whenever hidden
files are excluded or the mode's manual filter_entry closure is
installed — in process_path that closure is installed when
ignore_gitignore is true, in process_token_count when ignore_gitignore
is false, the opposite condition. -/
theorem C2_vcs_pruning_amended (cli : Cli) (rootPath : List String)
    (entries : List FsEntry)
    (hexcl : cli.exclude_vcs = true) (hinc : cli.include_vcs = false) :
    ((cli.include_hidden = false ∨ cli.ignore_gitignore = true) →
      ∀ pc ∈ processPathFiles cli (Root.dir rootPath entries),
        ∀ nm ∈ ((pc.1).drop rootPath.length).dropLast, ¬ nm ∈ vcsNames)
    ∧ ((cli.include_hidden = false ∨ cli.ignore_gitignore = false) →
      ∀ pth ∈ tokenDiscoverRoot cli (Root.dir rootPath entries),
        ∀ nm ∈ (pth.drop rootPath.length).dropLast, ¬ nm ∈ vcsNames) := by
  constructor
  · intro hyp pc hpc nm hnm
    have hcfg : (walkCfgProcessPath cli).hidden = true
        ∨ (walkCfgProcessPath cli).vcsFilter = true := by
      rcases hyp with hh | hg
      · exact Or.inl (by simp [walkCfgProcessPath, hh])
      · exact Or.inr (by simp [walkCfgProcessPath, hexcl, hinc, hg])
    simp only [processPathFiles, List.mem_filterMap] at hpc
    obtain ⟨e, hef, hmap⟩ := hpc
    have hew : e ∈ walkDir (walkCfgProcessPath cli) entries :=
      (List.mem_filter.mp hef).1
    have hfst : pc.1 = rootPath ++ e.comps := by
      cases hc : e.content with
      | none => rw [hc] at hmap; exact absurd hmap (by simp)
      | some c =>
        rw [hc] at hmap
        simp at hmap
        subst hmap
        rfl
    have hcomps : (pc.1).drop rootPath.length = e.comps := by
      rw [hfst, List.drop_left]
    rw [hcomps] at hnm
    exact fun hv => walkDir_no_vcs_interior _ entries hcfg e hew nm hnm hv
  · intro hyp pth hpth nm hnm
    have hcfg : (walkCfgTokenCount cli).hidden = true
        ∨ (walkCfgTokenCount cli).vcsFilter = true := by
      rcases hyp with hh | hg
      · exact Or.inl (by simp [walkCfgTokenCount, hh])
      · exact Or.inr (by simp [walkCfgTokenCount, hexcl, hinc, hg])
    simp only [tokenDiscoverRoot, List.mem_map] at hpth
    obtain ⟨e, hef, hmap⟩ := hpth
    have hew : e ∈ walkDir (walkCfgTokenCount cli) entries :=
      (List.mem_filter.mp hef).1
    have hcomps : pth.drop rootPath.length = e.comps := by
      rw [← hmap, List.drop_left]
    rw [hcomps] at hnm
    exact fun hv => walkDir_no_vcs_interior _ entries hcfg e hew nm hnm hv

/-- Witness for C2 (amended): the token-count walk over a concrete tree
with default hidden handling yields a file below the ordinary directory
"sub", and the theorem confirms "sub" is not a VCS directory name. -/
theorem C2_vcs_pruning_amended_witness :
    ¬ "sub" ∈ vcsNames :=
  (C2_vcs_pruning_amended (Cli.mk [] false false false true false [] false) ["r"]
      [⟨["sub"], true, none⟩, ⟨["sub", "a.txt"], false, some "x"⟩] rfl rfl).2
    (Or.inr rfl) (["r", "sub", "a.txt"]) (by decide) "sub" (by decide)

/-- The backtick-growing loop, started on any all-backtick fence, returns
the shortest all-backtick extension of it that does not occur in the
content, and every strictly shorter fence length (down to the starting
one) does occur. -/
lemma growFence_spec : ∀ (c fence : List Char),
    (∃ j, fence = List.replicate j btick) →
    ∃ k, fence.length ≤ k ∧ growFence c fence = List.replicate k btick
      ∧ containsSeq (List.replicate k btick) c = false
      ∧ ∀ m, fence.length ≤ m → m < k → containsSeq (List.replicate m btick) c = true := by
  intro c fence
  induction fence using growFence.induct c with
  | case1 f hc ih =>
    intro hex
    obtain ⟨j, hj⟩ := hex
    have hjlen : f.length = j := by rw [hj]; simp
    have hrep' : ∃ i, f ++ [btick] = List.replicate i btick :=
      ⟨j + 1, by rw [hj, ← List.replicate_succ']⟩
    obtain ⟨k, hk1, hk2, hk3, hk4⟩ := ih hrep'
    have hlen : (f ++ [btick]).length = f.length + 1 := by simp
    refine ⟨k, by omega, ?_, hk3, ?_⟩
    · rw [growFence]
      simp only [hc, dite_true]
      exact hk2
    · intro m hm1 hm2
      rcases Nat.eq_or_lt_of_le hm1 with heq | hlt
      · rw [← heq, hjlen, ← hj]
        exact hc
      · exact hk4 m (by omega) hm2
  | case2 f hc =>
    intro hex
    obtain ⟨j, hj⟩ := hex
    have hjlen : f.length = j := by rw [hj]; simp
    have hcf : containsSeq f c = false := by simpa using hc
    have hff : f = List.replicate f.length btick := by
      rw [hjlen, hj]
    refine ⟨f.length, le_refl _, ?_, ?_, ?_⟩
    · rw [growFence]
      simp only [hcf, Bool.false_eq_true, dite_false]
      exact hff
    · rw [← hff]
      exact hcf
    · intro m hm1 hm2
      omega

/-- C4: the markdown fence chosen by print_as_markdown is the shortest
run of at least three backticks that does not occur anywhere in the
content — content without an embedded triple backtick gets exactly three,
content containing one gets four or more, the fence never occurs inside
the content, and every shorter candidate of length at least three does;
print_as_markdown emits exactly that fence around the content. -/
theorem C4_markdown_fence (content : String) :
    (∃ k, 3 ≤ k ∧ (markdownFence content).data = List.replicate k btick
       ∧ containsSeq (List.replicate k btick) content.data = false
       ∧ ∀ m, 3 ≤ m → m < k → containsSeq (List.replicate m btick) content.data = true)
    ∧ (containsSeq (List.replicate 3 btick) content.data = false →
        markdownFence content = "```")
    ∧ (containsSeq (List.replicate 3 btick) content.data = true →
        4 ≤ (markdownFence content).length)
    ∧ (∀ (w : Writer) (path : String) (ln : Bool),
        (print_as_markdown w path content ln).lines
          = w.lines ++ [path,
              markdownFence content ++ langFor (extensionOf (fileNamePart path)),
              (if ln then add_line_numbers content else content),
              markdownFence content]) := by
  obtain ⟨k, hk1, hk2, hk3, hk4⟩ := growFence_spec content.data [btick, btick, btick] ⟨3, rfl⟩
  have hk1' : 3 ≤ k := by simpa using hk1
  have hdata : (markdownFence content).data = growFence content.data [btick, btick, btick] := rfl
  refine ⟨⟨k, hk1', by rw [hdata, hk2], hk3, fun m h3 hm => hk4 m (by simpa using h3) hm⟩, ?_, ?_, ?_⟩
  · intro hno
    have hkeq : k = 3 := by
      by_contra hne
      have h3k : 3 < k := lt_of_le_of_ne hk1' (Ne.symm hne)
      have hct := hk4 3 (by simp) h3k
      rw [hno] at hct
      exact absurd hct (by decide)
    have hlist : growFence content.data [btick, btick, btick] = [btick, btick, btick] := by
      rw [hk2, hkeq]
      decide
    simp only [markdownFence, hlist]
    decide
  · intro hyes
    have hne3 : k ≠ 3 := by
      intro hkeq
      rw [hkeq] at hk3
      rw [hk3] at hyes
      exact absurd hyes (by decide)
    have hlen : (markdownFence content).length = k := by
      have hd : (markdownFence content).data.length = k := by
        rw [hdata, hk2]
        simp
      exact hd
    omega
  · intro w path ln
    simp [print_as_markdown, Writer.write, List.append_assoc]

/-- Witness for C4: a concrete content without a triple backtick gets
exactly the three-backtick fence. -/
theorem C4_markdown_fence_witness :
    containsSeq (List.replicate 3 btick) ("abc" : String).data = false
    ∧ markdownFence "abc" = "```" :=
  ⟨by decide, (C4_markdown_fence "abc").2.1 (by decide)⟩

/-- Inserting a key leaves the key list unchanged when the key is
present and appends it otherwise. -/
lemma SMap.keys_insert (m : SMap) (k : List String) (v : Nat) :
    (m.insert k v).entries.map Prod.fst
      = if m.hasKey k then m.entries.map Prod.fst
        else m.entries.map Prod.fst ++ [k] := by
  unfold SMap.insert
  by_cases hk : m.hasKey k = true
  · simp only [hk, if_true]
    rw [List.map_map]
    apply List.map_congr_left
    intro e he
    by_cases hbeq : (e.1 == k) = true
    · have : e.1 = k := by simpa using hbeq
      simp [Function.comp, hbeq, this]
    · simp [Function.comp, hbeq]
  · rw [Bool.not_eq_true] at hk
    simp [hk]

lemma SMap.keysNodup_insert (m : SMap)
    (hnd : (m.entries.map Prod.fst).Nodup) (k : List String) (v : Nat) :
    ((m.insert k v).entries.map Prod.fst).Nodup := by
  rw [SMap.keys_insert]
  by_cases hk : m.hasKey k = true
  · simpa [hk] using hnd
  · have hnotin : k ∉ m.entries.map Prod.fst := by
      intro hmem
      obtain ⟨e, he, hfst⟩ := List.mem_map.mp hmem
      have : m.hasKey k = true := by
        unfold SMap.hasKey
        rw [List.any_eq_true]
        exact ⟨e, he, by simp [hfst]⟩
      exact hk this
    simp [hk, List.nodup_append, hnd, hnotin]


lemma find?_map_replace (k : List String) (v : Nat) :
    ∀ l : List (List String × Nat), l.any (fun e => e.1 == k) = true →
      (List.find? (fun e => e.1 == k)
          (l.map (fun e => if (e.1 == k) = true then (k, v) else e))).map (fun e => e.2)
        = some v := by
  intro l
  induction l with
  | nil => simp
  | cons e l ih =>
    intro hany
    rw [List.map_cons]
    by_cases hbeq : (e.1 == k) = true
    · rw [if_pos hbeq, List.find?_cons_of_pos _ (by simp)]
      rfl
    · have hfalse : (e.1 == k) = false := by simpa using hbeq
      rw [if_neg hbeq, List.find?_cons_of_neg _ (by simp [hfalse])]
      apply ih
      rw [List.any_cons, hfalse, Bool.false_or] at hany
      exact hany

lemma find?_append_self (k : List String) (v : Nat) :
    ∀ l : List (List String × Nat), (∀ e ∈ l, (e.1 == k) = false) →
      List.find? (fun e => e.1 == k) (l ++ [(k, v)]) = some (k, v) := by
  intro l
  induction l with
  | nil => exact fun _ => List.find?_cons_of_pos _ (by simp)
  | cons e l ih =>
    intro hnone
    have he : (e.1 == k) = false := hnone e (by simp)
    rw [List.cons_append, List.find?_cons_of_neg _ (by simp [he])]
    exact ih (fun e' he' => hnone e' (by simp [he']))

lemma SMap.lookup_insert_self (m : SMap) (k : List String) (v : Nat) :
    (m.insert k v).lookup k = some v := by
  unfold SMap.insert SMap.lookup
  by_cases hk : m.hasKey k = true
  · simp only [hk, if_true]
    exact find?_map_replace k v m.entries hk
  · rw [Bool.not_eq_true] at hk
    simp only [hk, Bool.false_eq_true, if_false]
    have hnone : ∀ e ∈ m.entries, (e.1 == k) = false := by
      unfold SMap.hasKey at hk
      rw [List.any_eq_false] at hk
      intro e he
      simpa using hk e he
    rw [find?_append_self k v m.entries hnone]
    rfl

lemma find?_map_replace_ne (k k' : List String) (v : Nat) (hne : k' ≠ k) :
    ∀ l : List (List String × Nat),
      (List.find? (fun e => e.1 == k')
          (l.map (fun e => if (e.1 == k) = true then (k, v) else e))).map (fun e => e.2)
        = (List.find? (fun e => e.1 == k') l).map (fun e => e.2) := by
  intro l
  have hkk : (k == k') = false := beq_eq_false_iff_ne.mpr (fun hh => hne hh.symm)
  induction l with
  | nil => simp
  | cons e l ih =>
    rw [List.map_cons]
    by_cases hbeq : (e.1 == k) = true
    · have heq : e.1 = k := by simpa using hbeq
      have h2 : (e.1 == k') = false := by rw [heq]; exact hkk
      rw [if_pos hbeq, List.find?_cons_of_neg _ (by simp [hkk]),
          List.find?_cons_of_neg _ (by simp [h2])]
      exact ih
    · rw [if_neg hbeq]
      by_cases hbq' : (e.1 == k') = true
      · rw [List.find?_cons_of_pos _ (by simp [hbq']),
            List.find?_cons_of_pos _ (by simp [hbq'])]
      · have hf : (e.1 == k') = false := by simpa using hbq'
        rw [List.find?_cons_of_neg _ (by simp [hf]),
            List.find?_cons_of_neg _ (by simp [hf])]
        exact ih

lemma find?_append_ne (k k' : List String) (v : Nat) (hne : k' ≠ k) :
    ∀ l : List (List String × Nat),
      (List.find? (fun e => e.1 == k') (l ++ [(k, v)])).map (fun e => e.2)
        = (List.find? (fun e => e.1 == k') l).map (fun e => e.2) := by
  intro l
  have hkk : (k == k') = false := beq_eq_false_iff_ne.mpr (fun hh => hne hh.symm)
  induction l with
  | nil =>
    rw [List.nil_append, List.find?_cons_of_neg _ (by simp [hkk])]
  | cons e l ih =>
    rw [List.cons_append]
    by_cases hbq' : (e.1 == k') = true
    · rw [List.find?_cons_of_pos _ (by simp [hbq']),
          List.find?_cons_of_pos _ (by simp [hbq'])]
    · have hf : (e.1 == k') = false := by simpa using hbq'
      rw [List.find?_cons_of_neg _ (by simp [hf]),
          List.find?_cons_of_neg _ (by simp [hf])]
      exact ih

lemma SMap.lookup_insert_ne (m : SMap) (k k' : List String) (v : Nat)
    (hne : k' ≠ k) :
    (m.insert k v).lookup k' = m.lookup k' := by
  unfold SMap.insert SMap.lookup
  by_cases hk : m.hasKey k = true
  · simp only [hk, if_true]
    exact find?_map_replace_ne k k' v hne m.entries
  · rw [Bool.not_eq_true] at hk
    simp only [hk, Bool.false_eq_true, if_false]
    exact find?_append_ne k k' v hne m.entries


lemma runCounting_go_lookup (tok : String → Nat) (read : List String → Option String) :
    ∀ (proc : List (List String)) (m : SMap) (q : List String),
      ((proc.foldl (countStep tok read) m).lookup q)
        = if q ∈ proc ∧ ((read q).map tok).isSome = true then (read q).map tok
          else m.lookup q := by
  intro proc
  induction proc with
  | nil =>
    intro m q
    simp
  | cons p ps ih =>
    intro m q
    rw [List.foldl_cons, ih]
    by_cases hq : q ∈ ps ∧ ((read q).map tok).isSome = true
    · rw [if_pos hq, if_pos ⟨List.mem_cons_of_mem p hq.1, hq.2⟩]
    · rw [if_neg hq]
      by_cases hqp : q = p
      · subst hqp
        cases hr : read q with
        | none => simp [countStep, hr]
        | some c => simp [countStep, hr, SMap.lookup_insert_self]
      · have hcond : ¬(q ∈ p :: ps ∧ ((read q).map tok).isSome = true) := by
          rintro ⟨hmem, hsome⟩
          rcases List.mem_cons.mp hmem with hqe | hqs
          · exact hqp hqe
          · exact hq ⟨hqs, hsome⟩
        rw [if_neg hcond]
        cases hr : read p with
        | none => simp [countStep, hr]
        | some c =>
          simp only [countStep, hr]
          exact SMap.lookup_insert_ne m p q (tok c) hqp

lemma runCounting_keysNodup (tok : String → Nat) (read : List String → Option String) :
    ∀ (proc : List (List String)) (m : SMap),
      (m.entries.map Prod.fst).Nodup →
      (((proc.foldl (countStep tok read) m).entries).map Prod.fst).Nodup := by
  intro proc
  induction proc with
  | nil =>
    intro m h
    simpa
  | cons p ps ih =>
    intro m h
    rw [List.foldl_cons]
    apply ih
    cases hr : read p with
    | none => simpa [countStep, hr]
    | some c =>
      simp only [countStep, hr]
      exact SMap.keysNodup_insert m h p (tok c)

lemma find?_entries_iff (k : List String) (v : Nat) :
    ∀ l : List (List String × Nat), (l.map Prod.fst).Nodup →
      ((k, v) ∈ l ↔
        (List.find? (fun e => e.1 == k) l).map (fun e => e.2) = some v) := by
  intro l
  induction l with
  | nil => simp
  | cons e l ih =>
    intro hnd
    rw [List.map_cons, List.nodup_cons] at hnd
    obtain ⟨hnotin, hnd'⟩ := hnd
    by_cases hbeq : (e.1 == k) = true
    · have heq : e.1 = k := by simpa using hbeq
      rw [List.find?_cons_of_pos _ (by simp [hbeq])]
      constructor
      · intro hmem
        rcases List.mem_cons.mp hmem with he | hl
        · rw [← he]
          rfl
        · exfalso
          apply hnotin
          rw [heq]
          exact List.mem_map.mpr ⟨(k, v), hl, rfl⟩
      · intro hfind
        have hv : e.2 = v := by simpa using hfind
        have he : (k, v) = e := by
          rw [Prod.ext_iff]
          exact ⟨heq.symm, hv.symm⟩
        exact List.mem_cons.mpr (Or.inl he)
    · have hf : (e.1 == k) = false := by simpa using hbeq
      have hne : e.1 ≠ k := by simpa using hf
      rw [List.find?_cons_of_neg _ (by simp [hf]), List.mem_cons, ← ih hnd']
      constructor
      · rintro (he | hl)
        · exfalso
          apply hne
          rw [← he]
        · exact hl
      · exact Or.inr


lemma SMap.mem_entries_iff (m : SMap)
    (hnd : (m.entries.map Prod.fst).Nodup) (k : List String) (v : Nat) :
    (k, v) ∈ m.entries ↔ m.lookup k = some v :=
  find?_entries_iff k v m.entries hnd

lemma runCounting_entries_perm (tok : String → Nat)
    (read : List String → Option String) (proc₁ proc₂ : List (List String))
    (hperm : proc₁.Perm proc₂) :
    (runCounting tok read proc₁).entries.Perm
      (runCounting tok read proc₂).entries := by
  have hnd₁ : ((runCounting tok read proc₁).entries.map Prod.fst).Nodup :=
    runCounting_keysNodup tok read proc₁ ⟨[]⟩ (by simp)
  have hnd₂ : ((runCounting tok read proc₂).entries.map Prod.fst).Nodup :=
    runCounting_keysNodup tok read proc₂ ⟨[]⟩ (by simp)
  have hent₁ : (runCounting tok read proc₁).entries.Nodup := List.Nodup.of_map _ hnd₁
  have hent₂ : (runCounting tok read proc₂).entries.Nodup := List.Nodup.of_map _ hnd₂
  apply List.perm_of_nodup_nodup_toFinset_eq hent₁ hent₂
  apply Finset.ext
  intro a
  simp only [List.mem_toFinset]
  obtain ⟨k, v⟩ := a
  rw [SMap.mem_entries_iff _ hnd₁ k v, SMap.mem_entries_iff _ hnd₂ k v]
  unfold runCounting
  rw [runCounting_go_lookup tok read proc₁ ⟨[]⟩ k,
      runCounting_go_lookup tok read proc₂ ⟨[]⟩ k]
  have hmem : k ∈ proc₁ ↔ k ∈ proc₂ := hperm.mem_iff
  by_cases hks : k ∈ proc₁ ∧ ((read k).map tok).isSome = true
  · rw [if_pos hks, if_pos ⟨hmem.mp hks.1, hks.2⟩]
  · rw [if_neg hks, if_neg (fun hc => hks ⟨hmem.mpr hc.1, hc.2⟩)]

/-- C3: after a complete counting run over any discovered file list —
each file read once, unreadable files skipped, updates serialized in any
order by the mutex, and the final map merged into the report in any
HashMap iteration order — the finished TokenReport satisfies
total_tokens = sum of file_tokens' values, and the total is the same for
every processing order (so for every worker-pool size). -/
theorem C3_token_total_invariant (tok : String → Nat)
    (read : List String → Option String)
    (files proc₁ proc₂ : List (List String))
    (es₁ es₂ : List (List String × Nat))
    (h₁ : proc₁.Perm files) (h₂ : proc₂.Perm files)
    (he₁ : es₁.Perm (runCounting tok read proc₁).entries)
    (he₂ : es₂.Perm (runCounting tok read proc₂).entries) :
    (buildReport es₁).total_tokens = sumValues (buildReport es₁).file_tokens
    ∧ (buildReport es₁).total_tokens = (buildReport es₂).total_tokens := by
  have hnd₁m : ((runCounting tok read proc₁).entries.map Prod.fst).Nodup :=
    runCounting_keysNodup tok read proc₁ ⟨[]⟩ (by simp)
  have hnd₂m : ((runCounting tok read proc₂).entries.map Prod.fst).Nodup :=
    runCounting_keysNodup tok read proc₂ ⟨[]⟩ (by simp)
  have hk₁ : (es₁.map Prod.fst).Nodup := ((he₁.map Prod.fst).nodup_iff).mpr hnd₁m
  have hk₂ : (es₂.map Prod.fst).Nodup := ((he₂.map Prod.fst).nodup_iff).mpr hnd₂m
  obtain ⟨ht₁, hent₁⟩ := buildReport_go es₁ TokenReport.new hk₁ (fun k _ => rfl)
  obtain ⟨ht₂, hent₂⟩ := buildReport_go es₂ TokenReport.new hk₂ (fun k _ => rfl)
  have hsum₁ : (buildReport es₁).total_tokens = (es₁.map (fun e => e.2)).sum := by
    rw [buildReport, ht₁]
    simp [TokenReport.new]
  have hsum₂ : (buildReport es₂).total_tokens = (es₂.map (fun e => e.2)).sum := by
    rw [buildReport, ht₂]
    simp [TokenReport.new]
  have hment₁ : (buildReport es₁).file_tokens.entries = es₁ := by
    rw [buildReport, hent₁]
    simp [TokenReport.new]
  refine ⟨?_, ?_⟩
  · rw [hsum₁, sumValues, hment₁]
  · have hperm12 : proc₁.Perm proc₂ := h₁.trans h₂.symm
    have hentperm := runCounting_entries_perm tok read proc₁ proc₂ hperm12
    have hesperm : es₁.Perm es₂ := he₁.trans (hentperm.trans he₂.symm)
    rw [hsum₁, hsum₂]
    exact (hesperm.map (fun e => e.2)).sum_eq


/-- Witness for C3: a concrete three-file run processed in two different
orders (one worker vs. interleaved workers) yields the same total, equal
to the sum of the map's values. -/
theorem C3_token_total_invariant_witness :
    ((buildReport (runCounting String.length
          (fun p => if p = ["b"] then none else some "xy")
          [["a"], ["b"], ["c"]]).entries).total_tokens
        = sumValues (buildReport (runCounting String.length
            (fun p => if p = ["b"] then none else some "xy")
            [["a"], ["b"], ["c"]]).entries).file_tokens)
    ∧ ((buildReport (runCounting String.length
          (fun p => if p = ["b"] then none else some "xy")
          [["a"], ["b"], ["c"]]).entries).total_tokens
        = (buildReport (runCounting String.length
            (fun p => if p = ["b"] then none else some "xy")
            [["c"], ["a"], ["b"]]).entries).total_tokens) :=
  C3_token_total_invariant String.length
    (fun p => if p = ["b"] then none else some "xy")
    [["a"], ["b"], ["c"]] [["a"], ["b"], ["c"]] [["c"], ["a"], ["b"]]
    (runCounting String.length (fun p => if p = ["b"] then none else some "xy")
      [["a"], ["b"], ["c"]]).entries
    (runCounting String.length (fun p => if p = ["b"] then none else some "xy")
      [["c"], ["a"], ["b"]]).entries
    (by decide) (by decide) (List.Perm.refl _) (List.Perm.refl _)

end Summarize
